import Mathlib

/-!
Verification of the signals2dve expansion-and-emission engine.

Definitions below are shallow embeddings of `src/signals2dve.py`
(the authoritative implementation; `src/dve_signal_tcl_generator.py`
is an earlier generation of the same program and is cited where its
comments document intent).  Python strings are Lean `String`s, Python
ints are `Int`, dicts are insertion-ordered association lists, and the
unbounded `while` loop of `Config.expand_env` is modelled with an
explicit fuel parameter (returning `none` when the loop has not
stabilised within the given number of passes).
-/

namespace S2D

/-- Python values appearing in substitution environments: the config's
`env` entries and iterator bindings are strings or integers. -/
inductive Value where
  | int (i : Int)
  | str (s : String)
deriving DecidableEq, Repr

/-- Python `str(v)` for the two value kinds we model. -/
def pyStr : Value → String
  | .int i => toString i
  | .str s => s

/-- A Python dict of substitution bindings, as an insertion-ordered
association list (Python dicts preserve insertion order, which the
source relies on when iterating `env.items()`). -/
abbrev Env := List (String × Value)

/-- One step of Python `str.replace`: scan left to right, replacing each
non-overlapping occurrence of `pat` by `rep`.  Structural recursion on a
fuel bound; `pyReplace` supplies fuel equal to the string length, which
is enough because each step consumes at least one character when `pat`
is non-empty. -/
def replaceAllFuel (pat rep : List Char) : Nat → List Char → List Char
  | _, [] => []
  | 0, s => s
  | n + 1, c :: cs =>
    if pat.isPrefixOf (c :: cs) then
      rep ++ replaceAllFuel pat rep n (List.drop pat.length (c :: cs))
    else
      c :: replaceAllFuel pat rep n cs

/-- Python `s.replace(pat, rep)` (for the non-empty patterns the source
uses; patterns here always start with `'$'`). -/
def pyReplace (s pat rep : String) : String :=
  if pat.data.isEmpty then s
  else ⟨replaceAllFuel pat.data rep.data s.data.length s.data⟩

/-- `substitute(obj, env)` from `signals2dve.py`, string case: for each
key `k` of `env` in order, replace every occurrence of `$k` and then of
`${k}` by `str(v)`.  (The list/dict cases of the source just map this
over the structure.) -/
def substituteStr (s : String) (env : Env) : String :=
  env.foldl
    (fun acc kv =>
      pyReplace (pyReplace acc ("$" ++ kv.1) (pyStr kv.2))
        ("$\x7b" ++ kv.1 ++ "\x7d") (pyStr kv.2))
    s

/-- Association-list lookup, first match (Python dict lookup). -/
def alookup (env : Env) (k : String) : Option Value :=
  match env with
  | [] => none
  | kv :: rest => if kv.1 = k then some kv.2 else alookup rest k

/-- Python dict update `env[k] = v` / `{**env, k: v}`: replace the value
in place if the key is present (keeping its position), else append. -/
def dinsert (env : Env) (k : String) (v : Value) : Env :=
  if env.any (fun kv => kv.1 = k) then
    env.map (fun kv => if kv.1 = k then (k, v) else kv)
  else
    env ++ [(k, v)]

/-- Modelled from the spec: the restricted expression evaluator of §5.
The source calls Python `eval(e, {}, iter_env)` on the expression
string, which cannot be embedded; the spec mandates "a restricted,
sandboxed evaluator exposing only the current environment's variables
and a fixed safe operator set (arithmetic, string
concatenation/formatting)", which this small AST provides.  No claim
depends on the value an expression computes, only on which keys
`Group.expand` writes. -/
inductive Expr where
  | lit (v : Value)
  | var (k : String)
  | add (a b : Expr)
  | mul (a b : Expr)
deriving DecidableEq, Repr

/-- Evaluation of the restricted expression language against the running
environment (missing variables and mixed-type arithmetic default to 0,
a detail no claim exercises). -/
def evalExpr : Expr → Env → Value
  | .lit v, _ => v
  | .var k, env => (alookup env k).getD (.int 0)
  | .add a b, env =>
    match evalExpr a env, evalExpr b env with
    | .int x, .int y => .int (x + y)
    | .str x, .str y => .str (x ++ y)
    | _, _ => .int 0
  | .mul a b, env =>
    match evalExpr a env, evalExpr b env with
    | .int x, .int y => .int (x * y)
    | _, _ => .int 0

/-- The `for k, e in self.expr.items(): iter_env[k] = eval(e, {}, iter_env)`
loop of `Group.expand`: each expression is evaluated against the running
environment in declaration order and written back under its name. -/
def applyExprs (exprs : List (String × Expr)) (env : Env) : Env :=
  exprs.foldl (fun e ke => dinsert e ke.1 (evalExpr ke.2 e)) env

/-- Python `range(v)` for a possibly negative bound: empty when `v ≤ 0`. -/
def pyRange (v : Int) : List Int :=
  (List.range v.toNat).map Int.ofNat

/-- `itertools.product` over lists of iterator values, leftmost factor
outermost (Python's iteration order). -/
def listProd : List (List Int) → List (List Int)
  | [] => [[]]
  | xs :: rest => xs.flatMap (fun x => (listProd rest).map (x :: ·))

/-- `iter_env = {**env, **dict(zip(self.iterators.keys(), values))}`:
extend the environment with the iterator bindings in declaration
order. -/
def insertIters (env : Env) (ks : List String) (vs : List Int) : Env :=
  (ks.zip vs).foldl (fun e kv => dinsert e kv.1 (.int kv.2)) env

/-- A child of a Group in the declarative tree: `Signal` (path and
optional radix), `Divider` (label), or structural `SignalGroup` (base
prefix plus nested children). -/
inductive Child where
  | sig (path : String) (radix : Option String)
  | divider (name : String)
  | sgroup (base : String) (children : List Child)
deriving Repr

/-- The `Group` entity of `signals2dve.py`.  The Python `parent` object
reference is modelled by the one datum the code ever reads through it
when constructing and linking groups, `parent.full_name`, stored as
`parentFullName` (`none` for a root).  `fullName` is the stored
`full_name` attribute, computed once at construction
(`Group.__init__` line 300) and never recomputed afterwards. -/
inductive Group where
  | mk (name base : String) (collapse : Bool) (children : List Child)
      (subgroups : List Group) (iterators : List (String × Int))
      (expr : List (String × Expr)) (parentFullName : Option String)
      (fullName : String) (id : Option Int)
deriving Repr

def Group.name : Group → String
  | .mk n _ _ _ _ _ _ _ _ _ => n

def Group.base : Group → String
  | .mk _ b _ _ _ _ _ _ _ _ => b

def Group.collapse : Group → Bool
  | .mk _ _ c _ _ _ _ _ _ _ => c

def Group.children : Group → List Child
  | .mk _ _ _ ch _ _ _ _ _ _ => ch

def Group.subgroups : Group → List Group
  | .mk _ _ _ _ sgs _ _ _ _ _ => sgs

def Group.iterators : Group → List (String × Int)
  | .mk _ _ _ _ _ its _ _ _ _ => its

def Group.expr : Group → List (String × Expr)
  | .mk _ _ _ _ _ _ ex _ _ _ => ex

def Group.parentFullName : Group → Option String
  | .mk _ _ _ _ _ _ _ pfn _ _ => pfn

def Group.fullName : Group → String
  | .mk _ _ _ _ _ _ _ _ fn _ => fn

def Group.id : Group → Option Int
  | .mk _ _ _ _ _ _ _ _ _ i => i

/-- The `Group.__init__` constructor: stores the fields and computes
`full_name` as `parent.full_name + "|" + name` when a parent is given,
else `name` (line 300 of the source). -/
def Group.make (name base : String) (collapse : Bool)
    (children : List Child) (subgroups : List Group)
    (iterators : List (String × Int)) (expr : List (String × Expr))
    (parentFullName : Option String) (id : Option Int) : Group :=
  .mk name base collapse children subgroups iterators expr parentFullName
    (match parentFullName with
     | some p => p ++ "|" ++ name
     | none => name)
    id

/-- `SignalGroup.expand(env, parent_base)` (signals2dve.py lines
258-270), acting on the flattened child list once the receiver's own
base has been resolved: nested SignalGroups recurse with the combined
base, Signals get the base prefixed to their (unsubstituted) path, and
Dividers are passed through by `flat.append(child)`. -/
def sgFlatten (env : Env) (base : String) : List Child → List Child
  | [] => []
  | .sgroup b2 cs :: rest =>
    sgFlatten env (base ++ substituteStr b2 env) cs ++ sgFlatten env base rest
  | .sig p r :: rest => .sig (base ++ p) r :: sgFlatten env base rest
  | .divider d :: rest => .divider d :: sgFlatten env base rest

/-- The entry point of `SignalGroup.expand`: compute
`base = parent_base + substitute(self.base, env)` and flatten the
children against it. -/
def sgExpand (env : Env) (parentBase : String) (base : String)
    (children : List Child) : List Child :=
  sgFlatten env (parentBase ++ substituteStr base env) children

mutual

/-- The resolution stage of `Group.expand` (signals2dve.py lines
417-439), reached when no iterators remain (in the source, the deepcopy
with `iterators`/`expr` cleared re-enters `expand`, which then runs
exactly this code on the same remaining fields): substitute the
environment into name and base, resolve the children in order, expand
the subgroups with the same environment, and build exactly one resolved
Group via the constructor, passing along the original parent
reference. -/
def Group.resolveStage (g : Group) (env : Env) : List Group :=
  match g with
  | .mk name base coll children sgs _its _exs pfn _fn _id =>
    let base' := substituteStr base env
    [Group.make (substituteStr name env) base' coll
      (children.flatMap (fun c =>
        match c with
        | .sgroup b2 cs => sgExpand env base' b2 cs
        | .sig p r => [.sig (substituteStr p env) r]
        | .divider d => [.divider d]))
      (Group.expandForest sgs env) [] [] pfn none]

/-- Expansion mapped over a list of subgroup templates, concatenating
the branches (`subgroups.extend(sg.expand(env))`). -/
def Group.expandForest : List Group → Env → List Group
  | [], _ => []
  | g :: t, env => Group.expand g env ++ Group.expandForest t env

/-- `Group.expand(env)` (signals2dve.py lines 403-439).  With iterators
declared: for every tuple of the cartesian product of `range(count)`
over the iterators in declaration order, extend the environment with
the iterator bindings, evaluate the expressions in declaration order
against the running environment, and run the resolution stage of a
clone whose `iterators`/`expr` are cleared; concatenate the branches.
Without iterators: run the resolution stage directly. -/
def Group.expand (g : Group) (env : Env) : List Group :=
  match g.iterators with
  | [] => Group.resolveStage g env
  | its@(_ :: _) =>
    (listProd (its.map (fun kv => pyRange kv.2))).flatMap
      (fun vals =>
        Group.resolveStage g
          (applyExprs g.expr (insertIters env (its.map Prod.fst) vals)))

end

/-- The recursive inner update of `fix_parents` (signals2dve.py lines
547-557) below a parent with full name `pfn` and resolved base `pbase`:
each subgroup's parent reference is rewritten to the actual expanded
parent (`sg.parent = g`, modelled as the `parentFullName` field), its
base becomes `g.base + sg.base`, and the walk recurses into it with the
updated base; the subgroup's stored `fullName` is not touched. -/
def fixSubs (pfn pbase : String) : List Group → List Group
  | [] => []
  | .mk n b c ch sgs its exs _pfn fn idv :: rest =>
    let newBase := pbase ++ b
    Group.mk n newBase c ch (fixSubs fn newBase sgs) its exs (some pfn) fn
        idv
      :: fixSubs pfn pbase rest

/-- `fix_parents(groups)`: the roots themselves are unchanged; their
subgroup trees are relinked and base-prefixed. -/
def fixParents : List Group → List Group
  | [] => []
  | .mk n b c ch sgs its exs pfn fn idv :: t =>
    Group.mk n b c ch (fixSubs fn b sgs) its exs pfn fn idv :: fixParents t

/-- `assign_ids(groups, start)` (signals2dve.py lines 560-575): walk the
forest in pre-order, give each group the current id, and return the
next available id. -/
def assignIds : List Group → Int → List Group × Int
  | [], c => ([], c)
  | .mk n b cl ch sgs its exs pfn fn _idv :: t, c =>
    let inner := assignIds sgs (c + 1)
    let rest := assignIds t inner.2
    (Group.mk n b cl ch inner.1 its exs pfn fn (some c) :: rest.1, rest.2)

/-- The deterministic pre-order listing of a Group forest (each group
before its subgroups, siblings left to right). -/
def preorder : List Group → List Group
  | [] => []
  | g@(.mk _ _ _ _ sgs _ _ _ _ _) :: t => g :: (preorder sgs ++ preorder t)

/-- Python string formatting of a group id that may be `None`. -/
def pyStrOfId : Option Int → String
  | none => "None"
  | some i => toString i

/-- `Divider.tcl_print(group_id)` (signals2dve.py lines 219-221). -/
def dividerTcl (name : String) (gid : Option Int) : String :=
  "gui_sg_addsignal -group \"$_session_group_" ++ pyStrOfId gid
    ++ "\" \x7b " ++ name ++ " \x7d -divider\n"

/-- The fixed arguments of `print_command_signals`. -/
structure EmitCfg where
  command : String
  base : String
  closing : String
  separator : String
  gid : Option Int
  limit : Int
  useDividers : Bool

/-- The loop of `print_command_signals` (signals2dve.py lines 577-604),
with the running `line` made explicit and each `s += ...` append
collected as one list element (the function's returned string is the
concatenation of these pieces, see `printCommandSignals`).  A Divider
(when dividers are in use) closes the pending line, emitting it if it
is non-empty as text, then contributes its own line and resets `line`
to empty; a Signal is appended to the pending line (restarted from the
command prefix if the line is empty), and if the result exceeds a
positive limit it is closed at once and `line` resets to the command
prefix; any other child is skipped; at the end a non-empty pending line
is flushed. -/
def emitChunks (cfg : EmitCfg) : String → List Child → List String
  | line, [] => if line = "" then [] else [line ++ cfg.closing]
  | line, .divider d :: rest =>
    if cfg.useDividers then
      (if line = "" then [] else [line ++ cfg.closing])
        ++ dividerTcl d cfg.gid :: emitChunks cfg "" rest
    else emitChunks cfg line rest
  | line, .sig p _ :: rest =>
    let l1 := (if line = "" then cfg.command else line)
      ++ cfg.base ++ p ++ cfg.separator
    if 0 < cfg.limit ∧ cfg.limit < (l1.length : Int) then
      (l1 ++ cfg.closing) :: emitChunks cfg cfg.command rest
    else emitChunks cfg l1 rest
  | line, .sgroup _ _ :: rest => emitChunks cfg line rest

/-- `print_command_signals` itself: the concatenation of the emitted
pieces, starting with `line = command`. -/
def printCommandSignals (cfg : EmitCfg) (signals : List Child) : String :=
  String.join (emitChunks cfg cfg.command signals)

/-- The pieces `print_command_signals` has appended after processing a
prefix of the children, excluding the final flush (analysis companion
of `emitChunks`). -/
def emitChunksNF (cfg : EmitCfg) : String → List Child → List String
  | _, [] => []
  | line, .divider d :: rest =>
    if cfg.useDividers then
      (if line = "" then [] else [line ++ cfg.closing])
        ++ dividerTcl d cfg.gid :: emitChunksNF cfg "" rest
    else emitChunksNF cfg line rest
  | line, .sig p _ :: rest =>
    let l1 := (if line = "" then cfg.command else line)
      ++ cfg.base ++ p ++ cfg.separator
    if 0 < cfg.limit ∧ cfg.limit < (l1.length : Int) then
      (l1 ++ cfg.closing) :: emitChunksNF cfg cfg.command rest
    else emitChunksNF cfg l1 rest
  | line, .sgroup _ _ :: rest => emitChunksNF cfg line rest

/-- The value of the running `line` after processing a prefix of the
children (analysis companion of `emitChunks`). -/
def emitLineState (cfg : EmitCfg) : String → List Child → String
  | line, [] => line
  | line, .divider _ :: rest =>
    if cfg.useDividers then emitLineState cfg "" rest
    else emitLineState cfg line rest
  | line, .sig p _ :: rest =>
    let l1 := (if line = "" then cfg.command else line)
      ++ cfg.base ++ p ++ cfg.separator
    if 0 < cfg.limit ∧ cfg.limit < (l1.length : Int) then
      emitLineState cfg cfg.command rest
    else emitLineState cfg l1 rest
  | line, .sgroup _ _ :: rest => emitLineState cfg line rest

/-- A raw YAML scalar as it reaches the iterator-validation loop of
`Group.parse_group`: an integer or something else (modelled by its
string form). -/
inductive RawVal where
  | int (i : Int)
  | str (s : String)
deriving DecidableEq, Repr

/-- The iterator-validation loop of `Group.parse_group` (signals2dve.py
lines 359-365): walk the raw `iterators` mapping in order, keep any
`int` value (no sign check), and raise a `ParserError` at the first
value that is not an integer. -/
def parseIterators : List (String × RawVal) → Except String (List (String × Int))
  | [] => .ok []
  | (k, .int i) :: rest => (parseIterators rest).map (fun l => (k, i) :: l)
  | (k, .str _) :: _ => .error ("Iterator '" ++ k ++ "' must be an integer")

/-- One substitution round for a single entry of `env` inside
`Config.expand_env` (signals2dve.py lines 181-184): fold the current
environment over the entry's string, replacing `$key` and `${key}` for
every key other than the entry's own. -/
def passEntry (k : String) (s : String) (env : Env) : String :=
  env.foldl
    (fun acc kv =>
      if kv.1 = k then acc
      else
        pyReplace (pyReplace acc ("$" ++ kv.1) (pyStr kv.2))
          ("$\x7b" ++ kv.1 ++ "\x7d") (pyStr kv.2))
    s

/-- One full pass of the `while changed` loop of `Config.expand_env`:
entries are updated in place and in order, so an entry later in the
dict already sees the updated values of earlier entries (`done` is the
already-updated prefix).  Non-string values are left untouched. -/
def passAux : Env → Env → Env
  | done, [] => done
  | done, (k, v) :: rest =>
    match v with
    | .str s => passAux (done ++ [(k, .str (passEntry k s (done ++ (k, v) :: rest)))]) rest
    | .int i => passAux (done ++ [(k, .int i)]) rest

/-- One full in-place pass over the environment. -/
def expandPass (env : Env) : Env := passAux [] env

/-- `Config.expand_env` (signals2dve.py lines 172-188) with the
unbounded `while changed` loop made explicit through a fuel parameter:
`some env` when a pass changes nothing within `fuel` passes (the loop
exits), `none` when the loop is still running after `fuel` passes.  A
result of `none` for every fuel value means the source loops
forever. -/
def expandEnvFuel : Nat → Env → Option Env
  | 0, _ => none
  | n + 1, env =>
    let env' := expandPass env
    if env' = env then some env else expandEnvFuel n env'

/-- Consecutive assigned ids: `[some start, some (start+1), ...]` of
length `n`. -/
def conseq (start : Int) (n : Nat) : List (Option Int) :=
  (List.range n).map (fun i : Nat => some (start + (i : Int)))

/-- A run of `n` copies of the character `x`. -/
def xRep (n : Nat) : List Char := List.replicate n 'x'

/-- The cyclically referencing environment `{"a": "x$b", "b": "$a"}`. -/
def badEnv : Env := [("a", .str "x$b"), ("b", .str "$a")]

/-- The state of `badEnv` after `n + 1` passes of `Config.expand_env`
(and, for `n = 0`, after one pass): entry `a` has stabilised at `x$a`
while entry `b` has grown to `x`-repeated-`n` + `$a` and keeps growing
by one character every further pass. -/
def envN (n : Nat) : Env :=
  [("a", .str "x$a"), ("b", .str (String.mk (xRep n ++ ['$', 'a'])))]

/-- Example template for C1: iterators `{"n": 3}`, no expressions. -/
def g1Ex : Group :=
  Group.make "g_$n" "" true [.sig "$n.sig" none] [] [("n", 3)] [] none none

/-- Example template for C10: the iterator `m` has count 0. -/
def gzEx : Group :=
  Group.make "g" "" true [.sig "a" none] [] [("n", 3), ("m", 0)] [] none
    none

/-- Example subgroup template for C4, parsed under a parent whose (not
yet substituted) full name is `g_$n`. -/
def c4Sub : Group :=
  Group.make "s" "sb." true [] [] [] [] (some "g_$n") none

/-- Example root template for C4: iterator `n` over one value, name
containing `$n`, one subgroup. -/
def c4Root : Group :=
  Group.make "g_$n" "rb." true [] [c4Sub] [("n", 1)] [] none none

/-- Emitter configuration for C2's concrete instances: command prefix
`C`, line limit 4, empty base and closing, one-space separator. -/
def cfgEx2 : EmitCfg := ⟨"C", "", "", " ", none, 4, true⟩

/-- Children for C2's concrete instances: two signals with 2-character
paths (shorter than the limit 4, also counting base and separator). -/
def sigsEx2 : List Child := [.sig "aa" none, .sig "bb" none]

/-- Emitter configuration for C9's concrete instances: non-empty
command prefix, closing brace, dividers in use. -/
def cfgEx9 : EmitCfg := ⟨"C ", "", "\x7d", " ", some 5, 100, true⟩

/-- The length of a Signal child's path (0 for other children); used to
state path-length hypotheses decidably. -/
def pathLenC : Child → Nat
  | .sig p _ => p.length
  | _ => 0

/-- Whether a child is a Divider. -/
def isDividerC : Child → Bool
  | .divider _ => true
  | _ => false

/-!
Helper lemmas (not tied to a single claim).
-/

theorem listProd_of_mem_nil {ls : List (List Int)} (h : [] ∈ ls) :
    listProd ls = [] := by
  induction ls with
  | nil => cases h
  | cons x xs ih =>
    rcases List.mem_cons.mp h with hx | hx
    · subst hx; simp [listProd]
    · simp [listProd, ih hx]

theorem alookup_map_replace_self (env : Env) (k : String) (v : Value) :
    alookup (env.map (fun kv => if kv.1 = k then (k, v) else kv)) k
      = if env.any (fun kv => kv.1 = k) then some v else none := by
  induction env with
  | nil => rfl
  | cons kv rest ih =>
    by_cases hk : kv.1 = k
    · simp [alookup, hk]
    · have hd : decide (kv.1 = k) = false := decide_eq_false hk
      simp only [List.map_cons, if_neg hk, alookup, List.any_cons, hd,
        Bool.false_or]
      exact ih

theorem alookup_map_replace_ne (env : Env) (k k2 : String) (v : Value)
    (h : k ≠ k2) :
    alookup (env.map (fun kv => if kv.1 = k2 then (k2, v) else kv)) k
      = alookup env k := by
  induction env with
  | nil => rfl
  | cons kv rest ih =>
    by_cases hk : kv.1 = k2
    · simp [alookup, hk, Ne.symm h, ih]
    · by_cases hk2 : kv.1 = k
      · simp [alookup, hk, hk2, h]
      · simp [alookup, hk, hk2, ih]

theorem alookup_append_single_self (env : Env) (k : String) (v : Value)
    (h : ¬ env.any (fun kv => kv.1 = k)) :
    alookup (env ++ [(k, v)]) k = some v := by
  induction env with
  | nil => simp [alookup]
  | cons kv rest ih =>
    simp only [List.any_cons, Bool.or_eq_true, decide_eq_true_eq, not_or] at h
    simp only [List.cons_append, alookup, h.1, if_false]
    exact ih (by simpa using h.2)

theorem alookup_append_single_ne (env : Env) (k k2 : String) (v : Value)
    (h : k ≠ k2) :
    alookup (env ++ [(k2, v)]) k = alookup env k := by
  induction env with
  | nil => simp [alookup, Ne.symm h]
  | cons kv rest ih =>
    simp only [List.cons_append, alookup]
    split
    · rfl
    · exact ih

theorem alookup_dinsert_self (env : Env) (k : String) (v : Value) :
    alookup (dinsert env k v) k = some v := by
  unfold dinsert
  split
  · rename_i h
    rw [alookup_map_replace_self, if_pos h]
  · rename_i h
    exact alookup_append_single_self env k v (by simpa using h)

theorem alookup_dinsert_ne (env : Env) (k k2 : String) (v : Value)
    (h : k ≠ k2) :
    alookup (dinsert env k2 v) k = alookup env k := by
  unfold dinsert
  split
  · exact alookup_map_replace_ne env k k2 v h
  · exact alookup_append_single_ne env k k2 v h

theorem applyExprs_alookup_ne (exprs : List (String × Expr)) (env : Env)
    (k : String) (hk : ∀ e ∈ exprs, e.1 ≠ k) :
    alookup (applyExprs exprs env) k = alookup env k := by
  induction exprs generalizing env with
  | nil => rfl
  | cons e rest ih =>
    have he : applyExprs (e :: rest) env
        = applyExprs rest (dinsert env e.1 (evalExpr e.2 env)) := rfl
    rw [he, ih _ (fun x hx => hk x (List.mem_cons_of_mem _ hx))]
    exact alookup_dinsert_ne env k e.1 _
      (Ne.symm (hk e (List.mem_cons_self _ _)))

theorem resolveStage_length (g : Group) (env : Env) :
    (Group.resolveStage g env).length = 1 := by
  cases g
  simp [Group.resolveStage]

theorem expand_mk_noiter (n b : String) (c : Bool) (ch : List Child)
    (sgs : List Group) (exs : List (String × Expr))
    (pfn : Option String) (fn : String) (idv : Option Int) (env : Env) :
    Group.expand (.mk n b c ch sgs [] exs pfn fn idv) env
      = Group.resolveStage (.mk n b c ch sgs [] exs pfn fn idv) env := by
  rw [Group.expand]
  rfl

theorem expand_mk_iter (n b : String) (c : Bool) (ch : List Child)
    (sgs : List Group) (it : String × Int) (its : List (String × Int))
    (exs : List (String × Expr)) (pfn : Option String) (fn : String)
    (idv : Option Int) (env : Env) :
    Group.expand (.mk n b c ch sgs (it :: its) exs pfn fn idv) env
      = (listProd ((it :: its).map (fun kv => pyRange kv.2))).flatMap
          (fun vals =>
            Group.resolveStage (.mk n b c ch sgs (it :: its) exs pfn fn idv)
              (applyExprs exs
                (insertIters env ((it :: its).map Prod.fst) vals))) := by
  rw [Group.expand]
  rfl

theorem resolveStage_mk (n b : String) (c : Bool) (ch : List Child)
    (sgs : List Group) (its : List (String × Int))
    (exs : List (String × Expr)) (pfn : Option String) (fn : String)
    (idv : Option Int) (env : Env) :
    Group.resolveStage (.mk n b c ch sgs its exs pfn fn idv) env
      = [Group.make (substituteStr n env) (substituteStr b env) c
          (ch.flatMap (fun cc =>
            match cc with
            | .sgroup b2 cs => sgExpand env (substituteStr b env) b2 cs
            | .sig p r => [.sig (substituteStr p env) r]
            | .divider d => [.divider d]))
          (Group.expandForest sgs env) [] [] pfn none] := by
  rw [Group.resolveStage]

theorem expandForest_nil (env : Env) : Group.expandForest [] env = [] := by
  rw [Group.expandForest]

theorem expandForest_cons (g : Group) (t : List Group) (env : Env) :
    Group.expandForest (g :: t) env
      = Group.expand g env ++ Group.expandForest t env := by
  rw [Group.expandForest]

theorem assignIds_nil (c : Int) : assignIds [] c = ([], c) := by
  rw [assignIds]

theorem assignIds_cons (n b : String) (cl : Bool) (ch : List Child)
    (sgs : List Group) (its : List (String × Int))
    (exs : List (String × Expr)) (pfn : Option String) (fn : String)
    (idv : Option Int) (t : List Group) (c : Int) :
    assignIds (.mk n b cl ch sgs its exs pfn fn idv :: t) c
      = (Group.mk n b cl ch (assignIds sgs (c + 1)).1 its exs pfn fn (some c)
          :: (assignIds t (assignIds sgs (c + 1)).2).1,
         (assignIds t (assignIds sgs (c + 1)).2).2) := by
  rw [assignIds]

theorem preorder_nil : preorder [] = [] := by rw [preorder]

theorem preorder_cons (n b : String) (cl : Bool) (ch : List Child)
    (sgs : List Group) (its : List (String × Int))
    (exs : List (String × Expr)) (pfn : Option String) (fn : String)
    (idv : Option Int) (t : List Group) :
    preorder (.mk n b cl ch sgs its exs pfn fn idv :: t)
      = .mk n b cl ch sgs its exs pfn fn idv :: (preorder sgs ++ preorder t) := by
  rw [preorder]

theorem conseq_succ (s : Int) (n : Nat) :
    conseq s (n + 1) = some s :: conseq (s + 1) n := by
  unfold conseq
  rw [List.range_succ_eq_map]
  simp only [List.map_cons, List.map_map, Nat.cast_zero, add_zero]
  congr 1
  apply List.map_congr_left
  intro i _
  simp only [Function.comp_apply, Nat.succ_eq_add_one]
  congr 1
  push_cast
  ring

theorem conseq_append (s : Int) (m k : Nat) :
    conseq s (m + k) = conseq s m ++ conseq (s + m) k := by
  unfold conseq
  rw [List.range_add, List.map_append, List.map_map]
  congr 1
  apply List.map_congr_left
  intro i _
  simp only [Function.comp_apply]
  congr 1
  push_cast
  ring

theorem mem_preorder_of_mem {gs : List Group} {g : Group} (h : g ∈ gs) :
    g ∈ preorder gs := by
  induction gs using preorder.induct with
  | case1 => cases h
  | case2 n b cl ch sgs its exs pfn fn idv t ih1 ih2 =>
    rw [preorder_cons]
    rcases List.mem_cons.mp h with h1 | h1
    · exact h1 ▸ List.mem_cons_self _ _
    · exact List.mem_cons_of_mem _ (List.mem_append_right _ (ih2 h1))

theorem assignIds_spec (gs : List Group) (start : Int) :
    (assignIds gs start).2 = start + ((preorder gs).length : Int)
    ∧ (preorder (assignIds gs start).1).map Group.id
        = conseq start (preorder gs).length := by
  induction gs, start using assignIds.induct with
  | case1 c =>
    simp [assignIds_nil, preorder_nil, conseq]
  | case2 n b cl ch sgs its exs pfn fn idv t c inner ihs iht =>
    have hinner : inner = assignIds sgs (c + 1) := rfl
    rw [hinner] at iht
    rw [assignIds_cons, preorder_cons, preorder_cons]
    refine ⟨?_, ?_⟩
    · rw [iht.1, ihs.1]
      simp only [List.length_cons, List.length_append]
      push_cast
      ring
    · simp only [List.map_cons, List.map_append, Group.id]
      rw [ihs.2, iht.2, ihs.1]
      simp only [List.length_cons, List.length_append]
      rw [conseq_succ, conseq_append]

theorem assignIds_bounds (gs : List Group) (start : Int) :
    ∀ g ∈ preorder (assignIds gs start).1,
      (∃ i : Int, g.id = some i ∧ start ≤ i)
      ∧ ∀ sg ∈ g.subgroups, ∃ i j : Int,
          g.id = some i ∧ sg.id = some j ∧ i < j := by
  induction gs, start using assignIds.induct with
  | case1 c =>
    rw [assignIds_nil, preorder_nil]
    intro g hg
    cases hg
  | case2 n b cl ch sgs its exs pfn fn idv t c inner ihs iht =>
    have hinner : inner = assignIds sgs (c + 1) := rfl
    rw [hinner] at iht
    rw [assignIds_cons, preorder_cons]
    intro g hg
    rcases List.mem_cons.mp hg with hg1 | hg1
    · subst hg1
      constructor
      · exact ⟨c, rfl, le_refl c⟩
      · intro sg hsg
        simp only [Group.subgroups] at hsg
        have hmem := mem_preorder_of_mem hsg
        obtain ⟨⟨j, hj, hjle⟩, _⟩ := ihs sg hmem
        exact ⟨c, j, rfl, hj, by omega⟩
    · rcases List.mem_append.mp hg1 with hg2 | hg2
      · obtain ⟨⟨i, hi, hile⟩, hsub⟩ := ihs g hg2
        exact ⟨⟨i, hi, by omega⟩, hsub⟩
      · obtain ⟨⟨i, hi, hile⟩, hsub⟩ := iht g hg2
        have hc2 := (assignIds_spec sgs (c + 1)).1
        refine ⟨⟨i, hi, ?_⟩, hsub⟩
        have hnn : (0:Int) ≤ ((preorder sgs).length : Int) := Int.ofNat_nonneg _
        omega

theorem emitChunks_length_aux (cfg : EmitCfg) (P : Nat) (hl : 0 < cfg.limit) :
    ∀ (signals : List Child) (line : String),
      (∀ c ∈ signals, pathLenC c ≤ P) →
      (∀ c ∈ signals, isDividerC c = false) →
      (line = "" ∨ line.length ≤ max cfg.limit.toNat cfg.command.length) →
      ∀ ch ∈ emitChunks cfg line signals,
        ch.length ≤ max cfg.limit.toNat cfg.command.length
          + cfg.base.length + P + cfg.separator.length
          + cfg.closing.length := by
  intro signals
  induction signals with
  | nil =>
    intro line _ _ hline ch hch
    simp only [emitChunks] at hch
    rcases hline with h | h
    · simp [h] at hch
    · by_cases he : line = ""
      · simp [he] at hch
      · simp only [if_neg he, List.mem_singleton] at hch
        subst hch
        simp only [String.length_append]
        omega
  | cons c rest ih =>
    intro line hp hnd hline ch hch
    cases c with
    | divider d =>
      have := hnd _ (List.mem_cons_self _ _)
      simp [isDividerC] at this
    | sgroup b2 cs =>
      exact ih line (fun x hm => hp x (List.mem_cons_of_mem _ hm))
        (fun x hm => hnd x (List.mem_cons_of_mem _ hm)) hline ch
        (by simpa [emitChunks] using hch)
    | sig p r =>
      have hpP : p.length ≤ P := by
        have := hp _ (List.mem_cons_self _ _)
        simpa [pathLenC] using this
      have hl0 : (if line = "" then cfg.command else line).length
          ≤ max cfg.limit.toNat cfg.command.length := by
        split
        · exact le_max_right _ _
        · rcases hline with h | h
          · simp_all
          · exact h
      simp only [emitChunks] at hch
      by_cases hov : 0 < cfg.limit
        ∧ cfg.limit < ((((if line = "" then cfg.command else line)
          ++ cfg.base ++ p ++ cfg.separator).length : Int))
      · rw [if_pos hov] at hch
        rcases List.mem_cons.mp hch with hc1 | hc1
        · subst hc1
          simp only [String.length_append]
          omega
        · exact ih cfg.command
            (fun x hm => hp x (List.mem_cons_of_mem _ hm))
            (fun x hm => hnd x (List.mem_cons_of_mem _ hm))
            (Or.inr (le_max_right _ _)) ch hc1
      · rw [if_neg hov] at hch
        have hle : ((if line = "" then cfg.command else line)
            ++ cfg.base ++ p ++ cfg.separator).length
            ≤ max cfg.limit.toNat cfg.command.length := by
          rcases not_and_or.mp hov with h | h
          · exact absurd hl h
          · push_neg at h
            have h2 : ((((if line = "" then cfg.command else line)
                ++ cfg.base ++ p ++ cfg.separator).length : Int))
                ≤ cfg.limit := h
            omega
        exact ih _
          (fun x hm => hp x (List.mem_cons_of_mem _ hm))
          (fun x hm => hnd x (List.mem_cons_of_mem _ hm))
          (Or.inr hle) ch hch

theorem emitChunks_append (cfg : EmitCfg) (xs : List Child) :
    ∀ (ys : List Child) (line : String),
      emitChunks cfg line (xs ++ ys)
        = emitChunksNF cfg line xs
          ++ emitChunks cfg (emitLineState cfg line xs) ys := by
  induction xs with
  | nil =>
    intro ys line
    simp [emitChunksNF, emitLineState]
  | cons c rest ih =>
    intro ys line
    cases c with
    | divider d =>
      by_cases hud : cfg.useDividers
      · simp [emitChunks, emitChunksNF, emitLineState, hud, ih,
          List.append_assoc]
      · simp [emitChunks, emitChunksNF, emitLineState, hud, ih]
    | sig p r =>
      by_cases hov : 0 < cfg.limit
        ∧ cfg.limit < ((((if line = "" then cfg.command else line)
          ++ cfg.base ++ p ++ cfg.separator).length : Int))
      · simp only [List.cons_append, List.append_eq, emitChunks,
          emitChunksNF, emitLineState, if_pos hov]
        rw [ih]
      · simp only [List.cons_append, List.append_eq, emitChunks,
          emitChunksNF, emitLineState, if_neg hov]
        rw [ih]
    | sgroup b2 cs =>
      simp only [List.cons_append, List.append_eq, emitChunks,
        emitChunksNF, emitLineState]
      rw [ih]

theorem replaceAllFuel_xrun_dollar_a (rep : List Char) :
    ∀ n : Nat, replaceAllFuel ['$', 'a'] rep (n + 2) (xRep n ++ ['$', 'a'])
      = xRep n ++ rep := by
  intro n
  induction n with
  | zero =>
    show replaceAllFuel ['$', 'a'] rep 2 ['$', 'a'] = rep
    simp [replaceAllFuel, List.isPrefixOf]
  | succ k ih =>
    have hx : xRep (k + 1) ++ ['$', 'a'] = 'x' :: (xRep k ++ ['$', 'a']) := by
      simp [xRep, List.replicate_succ]
    rw [hx]
    have hpf : (['$', 'a'].isPrefixOf ('x' :: (xRep k ++ ['$', 'a']))) = false := rfl
    show (if ['$', 'a'].isPrefixOf ('x' :: (xRep k ++ ['$', 'a'])) then
        rep ++ replaceAllFuel ['$', 'a'] rep (k + 2)
          (List.drop (['$', 'a'].length) ('x' :: (xRep k ++ ['$', 'a'])))
      else 'x' :: replaceAllFuel ['$', 'a'] rep (k + 2) (xRep k ++ ['$', 'a']))
      = xRep (k + 1) ++ rep
    rw [hpf]
    simp only [Bool.false_eq_true, if_false, ih]
    simp [xRep, List.replicate_succ]

theorem replaceAllFuel_xrun_brace (rep : List Char) :
    ∀ m : Nat, replaceAllFuel ['$', '\x7b', 'a', '\x7d'] rep (m + 2)
        (xRep m ++ ['$', 'a'])
      = xRep m ++ ['$', 'a'] := by
  intro m
  induction m with
  | zero =>
    show replaceAllFuel ['$', '\x7b', 'a', '\x7d'] rep 2 ['$', 'a'] = ['$', 'a']
    simp [replaceAllFuel, List.isPrefixOf]
  | succ k ih =>
    have hx : xRep (k + 1) ++ ['$', 'a'] = 'x' :: (xRep k ++ ['$', 'a']) := by
      simp [xRep, List.replicate_succ]
    rw [hx]
    have hpf : (['$', '\x7b', 'a', '\x7d'].isPrefixOf
        ('x' :: (xRep k ++ ['$', 'a']))) = false := rfl
    show (if ['$', '\x7b', 'a', '\x7d'].isPrefixOf ('x' :: (xRep k ++ ['$', 'a'])) then
        rep ++ replaceAllFuel ['$', '\x7b', 'a', '\x7d'] rep (k + 2)
          (List.drop (['$', '\x7b', 'a', '\x7d'].length)
            ('x' :: (xRep k ++ ['$', 'a'])))
      else 'x' :: replaceAllFuel ['$', '\x7b', 'a', '\x7d'] rep (k + 2)
        (xRep k ++ ['$', 'a']))
      = 'x' :: (xRep k ++ ['$', 'a'])
    rw [hpf]
    simp only [Bool.false_eq_true, if_false, ih]

theorem pyReplace_xrun_dollar_a (rep : String) (n : Nat) :
    pyReplace (String.mk (xRep n ++ ['$', 'a'])) "$a" rep
      = String.mk (xRep n ++ rep.data) := by
  unfold pyReplace
  rw [if_neg (by decide)]
  have hlen : (String.mk (xRep n ++ ['$', 'a'])).data.length = n + 2 := by
    simp [xRep]
  rw [show (String.mk (xRep n ++ ['$', 'a'])).data = xRep n ++ ['$', 'a']
    from rfl, hlen]
  rw [show ("$a").data = ['$', 'a'] from rfl]
  rw [replaceAllFuel_xrun_dollar_a rep.data n]

theorem pyReplace_xrun_brace (rep : String) (m : Nat) :
    pyReplace (String.mk (xRep m ++ ['$', 'a'])) "$\x7ba\x7d" rep
      = String.mk (xRep m ++ ['$', 'a']) := by
  unfold pyReplace
  rw [if_neg (by decide)]
  have hlen : (String.mk (xRep m ++ ['$', 'a'])).data.length = m + 2 := by
    simp [xRep]
  rw [show (String.mk (xRep m ++ ['$', 'a'])).data = xRep m ++ ['$', 'a']
    from rfl, hlen]
  rw [show ("$\x7ba\x7d").data = ['$', '\x7b', 'a', '\x7d'] from rfl]
  rw [replaceAllFuel_xrun_brace rep.data m]

theorem expandPass_envN (n : Nat) : expandPass (envN n) = envN (n + 1) := by
  have h1 : ∀ rep : String, pyReplace "x$a" "$b" rep = "x$a" := fun _ => rfl
  have h2 : ∀ rep : String, pyReplace "x$a" "$\x7bb\x7d" rep = "x$a" :=
    fun _ => rfl
  show passAux [] (envN n) = envN (n + 1)
  have ha : passEntry "a" "x$a" (envN n) = "x$a" := by
    show pyReplace (pyReplace "x$a" "$b"
        (pyStr (Value.str (String.mk (xRep n ++ ['$', 'a'])))))
      "$\x7bb\x7d" (pyStr (Value.str (String.mk (xRep n ++ ['$', 'a']))))
      = "x$a"
    rw [h1, h2]
  have hb : passEntry "b" (String.mk (xRep n ++ ['$', 'a']))
      [("a", Value.str "x$a"), ("b", Value.str (String.mk (xRep n ++ ['$', 'a'])))]
      = String.mk (xRep (n + 1) ++ ['$', 'a']) := by
    show pyReplace (pyReplace (String.mk (xRep n ++ ['$', 'a'])) "$a"
        (pyStr (Value.str "x$a")))
      "$\x7ba\x7d" (pyStr (Value.str "x$a"))
      = String.mk (xRep (n + 1) ++ ['$', 'a'])
    rw [show pyStr (Value.str "x$a") = "x$a" from rfl]
    rw [pyReplace_xrun_dollar_a "x$a" n]
    rw [show ("x$a").data = ['x', '$', 'a'] from rfl]
    rw [show xRep n ++ ['x', '$', 'a'] = xRep (n + 1) ++ ['$', 'a'] by
      simp [xRep, List.replicate_succ']]
    rw [pyReplace_xrun_brace "x$a" (n + 1)]
  show passAux [("a", Value.str (passEntry "a" "x$a" (envN n)))]
      [("b", Value.str (String.mk (xRep n ++ ['$', 'a'])))] = envN (n + 1)
  rw [ha]
  show [("a", Value.str "x$a"),
    ("b", Value.str (passEntry "b" (String.mk (xRep n ++ ['$', 'a']))
      [("a", Value.str "x$a"),
       ("b", Value.str (String.mk (xRep n ++ ['$', 'a'])))]))] = envN (n + 1)
  rw [hb]
  rfl

theorem envN_succ_ne (n : Nat) : envN (n + 1) ≠ envN n := by
  intro h
  have hlen := congrArg (fun e : Env =>
    match e with
    | _ :: (_, Value.str s) :: _ => s.data.length
    | _ => 0) h
  simp only [envN] at hlen
  simp [xRep] at hlen

/-!
Claim theorems.
-/

/-- C1: a Group template declaring exactly `iterators={"n": 3}` expands
to exactly 3 resolved Group snapshots, namely the resolution-stage
results of the iterator-cleared clone under the environments extending
the input with `n := 0`, `n := 1`, `n := 2` (so the template never
yields a direct resolved instance of itself, only the expanded
branches), and — provided no expression shadows the iterator name —
each branch's environment binds `n` to that branch's value, so each of
0, 1, 2 appears in exactly one branch's environment. -/
theorem c1_iterators_three_branches (g : Group) (env : Env)
    (h : g.iterators = [("n", 3)]) (hx : ∀ e ∈ g.expr, e.1 ≠ "n") :
    Group.expand g env
      = Group.resolveStage g (applyExprs g.expr (dinsert env "n" (.int 0)))
        ++ Group.resolveStage g (applyExprs g.expr (dinsert env "n" (.int 1)))
        ++ Group.resolveStage g (applyExprs g.expr (dinsert env "n" (.int 2)))
    ∧ (Group.expand g env).length = 3
    ∧ ∀ i : Int,
        alookup (applyExprs g.expr (dinsert env "n" (.int i))) "n"
          = some (.int i) := by
  have hp : listProd (([("n", (3:Int))]).map (fun kv => pyRange kv.2))
      = [[0], [1], [2]] := rfl
  have hmain : Group.expand g env
      = Group.resolveStage g (applyExprs g.expr (dinsert env "n" (.int 0)))
        ++ Group.resolveStage g (applyExprs g.expr (dinsert env "n" (.int 1)))
        ++ Group.resolveStage g (applyExprs g.expr (dinsert env "n" (.int 2))) := by
    rw [Group.expand, h]
    simp only [hp, List.flatMap_cons, List.flatMap_nil, List.append_nil]
    have hi : ∀ i : Int,
        insertIters env (([("n", (3:Int))]).map Prod.fst) [i]
          = dinsert env "n" (.int i) := fun i => rfl
    rw [hi 0, hi 1, hi 2, List.append_assoc]
  refine ⟨hmain, ?_, ?_⟩
  · rw [hmain]
    simp [resolveStage_length]
  · intro i
    rw [applyExprs_alookup_ne _ _ _ hx, alookup_dinsert_self]

/-- C1 witness: the theorem applied to the concrete template `g1Ex`
(iterators `{"n": 3}`, no expressions) and the empty environment. -/
theorem c1_iterators_three_branches_witness :
    g1Ex.iterators = [("n", 3)]
    ∧ ((Group.expand g1Ex []).length = 3
      ∧ alookup (applyExprs g1Ex.expr (dinsert [] "n" (.int 2))) "n"
          = some (.int 2)) :=
  ⟨by decide,
    (c1_iterators_three_branches g1Ex [] (by decide) (by decide)).2.1,
    (c1_iterators_three_branches g1Ex [] (by decide) (by decide)).2.2 2⟩

/-- C2 counterexample: with line limit 4 and two signals whose
contributions (base + path + separator, 3 characters each) are shorter
than the limit, `print_command_signals` emits the chunk `"Caa bb "` of
length 7 > 4 holding both signals: the source appends a signal to the
line first and only then compares against the limit, so a multi-signal
chunk can exceed the limit, refuting the claim that only a chunk with a
single over-long signal may exceed it. -/
theorem c2_chunk_exceeds_limit :
    emitChunks cfgEx2 cfgEx2.command sigsEx2 = ["Caa bb ", "C"]
    ∧ ("Caa bb ").length > 4
    ∧ ("aa").length < 4 ∧ ("bb").length < 4 :=
  ⟨by decide, by decide, by decide, by decide⟩

/-- C2 (amended): a chunk is closed immediately after the signal whose
append pushed it past the limit, so for a children list of Signals
(dividers are emitted as their own fixed single-line commands, treated
in C9) every emitted chunk is bounded by
`max limit |command| + |base| + P + |separator| + |closing|`, where `P`
bounds the signal path lengths: a chunk exceeds the limit by at most
its final signal's contribution plus the closing. -/
theorem c2_chunk_length_bounded (cfg : EmitCfg) (P : Nat)
    (signals : List Child) (hl : 0 < cfg.limit)
    (hp : ∀ c ∈ signals, pathLenC c ≤ P)
    (hnd : ∀ c ∈ signals, isDividerC c = false) :
    ∀ ch ∈ emitChunks cfg cfg.command signals,
      ch.length ≤ max cfg.limit.toNat cfg.command.length
        + cfg.base.length + P + cfg.separator.length
        + cfg.closing.length :=
  emitChunks_length_aux cfg P hl signals cfg.command hp hnd
    (Or.inr (le_max_right _ _))

/-- C2 witness: the bound applied to the concrete configuration
`cfgEx2` and children `sigsEx2` at the over-long chunk `"Caa bb "`
(limit 4, bound 7). -/
theorem c2_chunk_length_bounded_witness :
    0 < cfgEx2.limit
    ∧ ("Caa bb ").length ≤ max cfgEx2.limit.toNat cfgEx2.command.length
        + cfgEx2.base.length + 2 + cfgEx2.separator.length
        + cfgEx2.closing.length :=
  ⟨by decide,
    c2_chunk_length_bounded cfgEx2 2 sigsEx2 (by decide) (by decide)
      (by decide) "Caa bb " (by decide)⟩

/-- C3: evaluating `SignalGroup.expand` on a SignalGroup (base `b$x.`,
parent base `P.`, environment `x := T`) holding a Divider, a nested
SignalGroup and a Signal.  The substituted base is prefixed onto every
descendant Signal's path, recursively through the nested SignalGroup —
but the Divider is preserved in the flattened result
(`flat.append(child)` in signals2dve.py line 269), not dropped as the
claim (and the sibling implementation's own `# Ignore dividers` comment,
dve_signal_tcl_generator.py lines 273-275) requires. -/
theorem c3_signalgroup_divider_preserved :
    sgExpand [("x", Value.str "T")] "P." "b$x."
        [.divider "D", .sgroup "n." [.sig "t" none], .sig "s" none]
      = [.divider "D", .sig "P.bT.n.t" none, .sig "P.bT.s" none] := by
  simp [sgExpand, sgFlatten, substituteStr]
  exact ⟨by decide, by decide⟩

/-- C4: `full_name` is not recomputed when `fix_parents` rewrites a
subgroup's parent reference.  For the template `c4Root` (name `g_$n`,
iterator `n` over one value, one subgroup `s` parsed under it), after
expansion and `fix_parents` the resolved root's full name is `g_0` and
the subgroup's parent reference points at it, yet the subgroup's stored
full name is still `g_$n|s` — not `g_0|s` as the claimed invariant
`full_name = parent.full_name + "|" + name` requires. -/
theorem c4_full_name_not_recomputed :
    ((fixParents (Group.expand c4Root [])).map Group.fullName = ["g_0"]
      ∧ ((fixParents (Group.expand c4Root [])).flatMap Group.subgroups).map
          (fun sg => (sg.parentFullName, sg.fullName))
        = [(some "g_0", "g_$n|s")])
    ∧ "g_$n|s" ≠ "g_0" ++ "|" ++ "s" := by
  have he : Group.expand c4Root [] =
      [Group.mk "g_0" "rb." true [] [Group.mk "s" "sb." true [] [] [] []
        (some "g_$n") "g_$n|s" none] [] [] none "g_0" none] := by
    rw [show c4Root = Group.mk "g_$n" "rb." true [] [c4Sub] [("n", 1)] []
      none "g_$n" none from rfl]
    rw [expand_mk_iter]
    rw [show listProd (([("n", (1:Int))]).map (fun kv => pyRange kv.2))
      = [[0]] from rfl]
    simp only [List.flatMap_cons, List.flatMap_nil, List.append_nil]
    rw [show applyExprs [] (insertIters [] (([("n", (1:Int))]).map Prod.fst)
      [0]) = [("n", Value.int 0)] from rfl]
    rw [resolveStage_mk]
    rw [show c4Sub = Group.mk "s" "sb." true [] [] [] [] (some "g_$n")
      "g_$n|s" none from rfl]
    rw [expandForest_cons, expandForest_nil, expand_mk_noiter,
      resolveStage_mk, expandForest_nil]
    simp only [List.flatMap_nil, List.append_nil]
    rfl
  rw [he]
  refine ⟨⟨?_, ?_⟩, by decide⟩
  · simp [fixParents, fixSubs, Group.fullName]
  · simp [fixParents, fixSubs, Group.subgroups, Group.parentFullName,
      Group.fullName]

/-- C5 counterexample: the result of `substitute` does depend on the
order in which the environment's keys are applied: on the string `$ab`,
applying key `a` (value `X`) before key `ab` (value `Y`) yields `Xb`,
while the opposite order yields `Y`. -/
theorem c5_substitute_order_dependent :
    substituteStr "$ab" [("a", .str "X"), ("ab", .str "Y")]
      ≠ substituteStr "$ab" [("ab", .str "Y"), ("a", .str "X")] := by
  decide

/-- C5 (amended): `substitute` applies each key of the environment
exactly once, sequentially in the environment's iteration order —
substituting against a concatenation of environments equals
substituting against each part in turn — but the result can depend on
the relative order of the keys (e.g. when one key's token is a prefix
of another's, see the counterexample). -/
theorem c5_substitute_sequential (s : String) (e1 e2 : Env) :
    substituteStr s (e1 ++ e2) = substituteStr (substituteStr s e1) e2 := by
  unfold substituteStr
  exact List.foldl_append _ _ _ _

/-- C6: `assign_ids` over any forest and starting offset assigns ids
that, read along the deterministic pre-order traversal, are exactly the
consecutive integers from the offset — hence unique (`Nodup`) and
strictly increasing in pre-order — and every subgroup's id is strictly
greater than its parent's (the parent is numbered first). -/
theorem c6_assign_ids_preorder (gs : List Group) (start : Int) :
    (preorder (assignIds gs start).1).map Group.id
        = conseq start (preorder gs).length
    ∧ ((preorder (assignIds gs start).1).map Group.id).Nodup
    ∧ ∀ g ∈ preorder (assignIds gs start).1, ∀ sg ∈ g.subgroups,
        ∃ i j : Int, g.id = some i ∧ sg.id = some j ∧ i < j := by
  refine ⟨(assignIds_spec gs start).2, ?_,
    fun g hg => (assignIds_bounds gs start g hg).2⟩
  rw [(assignIds_spec gs start).2]
  unfold conseq
  apply List.Nodup.map
  · intro a b hab
    simp only [Option.some.injEq, add_right_inj] at hab
    exact_mod_cast hab
  · exact List.nodup_range _

/-- C7 counterexample: `Group.parse_group` accepts the negative
iterator bound `-1` without raising (the source checks only
`isinstance(v, int)`), contradicting the claim that a negative integer
iterator bound is rejected at parse time. -/
theorem c7_negative_iterator_accepted :
    parseIterators [("n", .int (-1))] = .ok [("n", -1)] := rfl

/-- C7 (amended): the iterator-validation loop raises a parse error if
and only if some value in the iterators mapping is not an integer;
negative integers are accepted (and later produce an empty expansion,
see C10). -/
theorem c7_iterator_error_iff_non_integer (its : List (String × RawVal)) :
    (∃ e, parseIterators its = Except.error e)
      ↔ ∃ k s, (k, RawVal.str s) ∈ its := by
  induction its with
  | nil => simp [parseIterators]
  | cons kv rest ih =>
    obtain ⟨k, v⟩ := kv
    cases v with
    | int i =>
      simp only [parseIterators]
      constructor
      · rintro ⟨e, he⟩
        cases hr : parseIterators rest with
        | ok l => rw [hr] at he; simp [Except.map] at he
        | error e2 =>
          obtain ⟨k2, s2, hm⟩ := ih.mp ⟨e2, hr⟩
          exact ⟨k2, s2, List.mem_cons_of_mem _ hm⟩
      · rintro ⟨k2, s2, hm⟩
        rcases List.mem_cons.mp hm with h | h
        · cases h
        · obtain ⟨e, he⟩ := ih.mpr ⟨k2, s2, h⟩
          exact ⟨e, by rw [he]; rfl⟩
    | str s =>
      simp only [parseIterators]
      exact ⟨fun _ => ⟨k, s, List.mem_cons_self _ _⟩, fun _ => ⟨_, rfl⟩⟩

/-- C8: on the cyclically referencing environment
`{"a": "x$b", "b": "$a"}` the `while changed` loop of
`Config.expand_env` never reaches a fixed point — after the first pass
entry `b` grows by one character every pass — so the fuel-explicit
model returns `none` for every fuel value: the source loops forever
instead of stopping after a bounded number of iterations with a
structural error as the claim requires. -/
theorem c8_expand_env_diverges :
    ∀ fuel : Nat, expandEnvFuel fuel badEnv = none := by
  have haux : ∀ (fuel n : Nat), expandEnvFuel fuel (envN n) = none := by
    intro fuel
    induction fuel with
    | zero => intro n; rfl
    | succ k ih =>
      intro n
      show (if expandPass (envN n) = envN n then some (envN n)
        else expandEnvFuel k (expandPass (envN n))) = none
      rw [expandPass_envN n]
      rw [if_neg (envN_succ_ne n)]
      exact ih (n + 1)
  intro fuel
  cases fuel with
  | zero => rfl
  | succ k =>
    show (if expandPass badEnv = badEnv then some badEnv
      else expandEnvFuel k (expandPass badEnv)) = none
    rw [show expandPass badEnv = envN 1 from rfl]
    rw [if_neg (by decide)]
    exact haux k 1

/-- C9 counterexample: a Divider occurring before any signal has been
packed does cause a signal command with no signals to be emitted: with
the non-empty command prefix of `cfgEx9`, the children list holding a
single Divider emits the bare command-plus-closing `"C \x7d"` before
the divider's own line, because the pending line starts as the command
prefix and the source's `if line:` test sees it as non-empty. -/
theorem c9_divider_emits_bare_command :
    emitChunks cfgEx9 cfgEx9.command [.divider "D"]
      = ["C \x7d", dividerTcl "D" (some 5)] := by
  decide

/-- C9 (amended): every Divider closes exactly the chunk pending at
that point — emitting it whenever its text is non-empty, which includes
the bare command prefix when no signal has been packed — then
contributes its own single-line command referencing its name and the
owning group's id, and chunking resumes with an empty line: for any
prefix `xs` and suffix `ys` of the children, the emitted pieces
decompose accordingly. -/
theorem c9_divider_closes_and_resets (cfg : EmitCfg)
    (hud : cfg.useDividers = true) (xs : List Child) (d : String)
    (ys : List Child) (line : String) :
    emitChunks cfg line (xs ++ .divider d :: ys)
      = emitChunksNF cfg line xs
        ++ ((if emitLineState cfg line xs = "" then []
             else [emitLineState cfg line xs ++ cfg.closing])
            ++ dividerTcl d cfg.gid :: emitChunks cfg "" ys) := by
  rw [emitChunks_append]
  congr 1
  simp [emitChunks, hud]

/-- C9 witness: the decomposition applied to the concrete configuration
`cfgEx9` with one signal before and one after the divider. -/
theorem c9_divider_closes_and_resets_witness :
    cfgEx9.useDividers = true
    ∧ emitChunks cfgEx9 cfgEx9.command
        ([Child.sig "p" none] ++ .divider "D" :: [Child.sig "q" none])
      = emitChunksNF cfgEx9 cfgEx9.command [Child.sig "p" none]
        ++ ((if emitLineState cfgEx9 cfgEx9.command [Child.sig "p" none] = ""
             then []
             else [emitLineState cfgEx9 cfgEx9.command [Child.sig "p" none]
               ++ cfgEx9.closing])
            ++ dividerTcl "D" cfgEx9.gid
              :: emitChunks cfgEx9 "" [Child.sig "q" none]) :=
  ⟨by decide,
    c9_divider_closes_and_resets cfgEx9 (by decide) [Child.sig "p" none]
      "D" [Child.sig "q" none] cfgEx9.command⟩

/-- C10: a Group template one of whose declared iterators has a count
of zero or a negative count expands to the empty list — the cartesian
product over an empty `range` is empty, so the group and its whole
subtree are silently omitted (the embedding is total, so no error is
raised). -/
theorem c10_nonpositive_iterator_empty (g : Group) (env : Env)
    (k : String) (c : Int) (hmem : (k, c) ∈ g.iterators) (hc : c ≤ 0) :
    Group.expand g env = [] := by
  have hr : pyRange c = [] := by
    unfold pyRange
    rw [Int.toNat_of_nonpos hc]
    rfl
  have hnil : [] ∈ g.iterators.map (fun kv => pyRange kv.2) := by
    rw [← hr]
    exact List.mem_map.mpr ⟨(k, c), hmem, rfl⟩
  cases hits : g.iterators with
  | nil => rw [hits] at hmem; cases hmem
  | cons hd tl =>
    rw [hits] at hnil
    rw [Group.expand, hits]
    simp only [listProd_of_mem_nil hnil, List.flatMap_nil]

/-- C10 witness: the theorem applied to the concrete template `gzEx`
(iterators `{"n": 3, "m": 0}`). -/
theorem c10_nonpositive_iterator_empty_witness :
    ("m", (0:Int)) ∈ gzEx.iterators ∧ Group.expand gzEx [] = [] :=
  ⟨by decide, c10_nonpositive_iterator_empty gzEx [] "m" 0 (by decide)
    (by decide)⟩

end S2D
